import Mathlib

/-!
Verification of the `debug_monitor` repository: a shallow embedding of its
registry, session manager and reconciliation algorithm, with theorems that
settle the specification claims against the code.

The embedding mirrors `src/server/mod.rs`, `src/debuggable/mod.rs` and
`src/serializable/mod.rs`.  Network and filesystem I/O are modelled as
explicit inputs/outputs: an incoming raw message is represented by its decode
result (`Option ClientUnitMessage`), and each operation returns the list of
`(client_index, ServerMessage)` pairs it sends over the wire.
-/

namespace DebugMonitor

/-- Mirrors `ServerMessage` in `src/serializable/mod.rs` (server→peer). -/
inductive ServerMessage where
  | GiveClientId (client_id : Nat)
  | Notify (id : Nat) (name : String) (value_in_json : String)
  | Remove (id : Nat)
  | RemoveAll
deriving DecidableEq, Repr

/-- Mirrors `ClientUnitMessage` in `src/serializable/mod.rs` (peer→server). -/
inductive ClientUnitMessage where
  | UpdateValue (id : Nat) (new_value : String)
  | Renotify
deriving DecidableEq, Repr

/-- `ServerMessage::Remove { .. }` discriminator. -/
def ServerMessage.isRemoveVariant : ServerMessage → Bool
  | ServerMessage.Remove _ => true
  | _ => false

/-- Mirrors `DebuggableOnServer` in `src/server/mod.rs`: the per-entry record
holding the display name, the last broadcast serialized value, and the pending
peer proposals (`incoming_jsons`, in arrival order). -/
structure DebuggableOnServer where
  name : String
  last_value : Option String
  incoming_jsons : List (Nat × String)
deriving DecidableEq, Repr

/-- Modelled from the spec (§4.1) and the external `fixed_index_vec` crate:
the Stable-Slot Registry is a sparse sequence of slots; `none` is a hole left
by a removal.  `fivGet l i` is `FixedIndexVec::get(i)`. -/
def fivGet {E : Type} : List (Option E) → Nat → Option E
  | [], _ => none
  | x :: _, 0 => x
  | _ :: r, n + 1 => fivGet r n

/-- Modelled from the spec (§3, §4.1): `FixedIndexVec::push` occupies the
lowest free slot (reusing holes left by removals) or appends a new slot, and
returns the index it used. -/
def fivPush {E : Type} (l : List (Option E)) (e : E) : Nat × List (Option E) :=
  match l with
  | [] => (0, [some e])
  | none :: rest => (0, some e :: rest)
  | some x :: rest =>
    let r := fivPush rest e
    (r.1 + 1, some x :: r.2)

/-- Modelled from the spec (§4.1): `FixedIndexVec::iter_index` starting at
index `start`, yielding `(index, entry)` for every occupied slot. -/
def iterIndexFrom {E : Type} (start : Nat) : List (Option E) → List (Nat × E)
  | [] => []
  | none :: rest => iterIndexFrom (start + 1) rest
  | some e :: rest => (start, e) :: iterIndexFrom (start + 1) rest

/-- `FixedIndexVec::iter_index`: `(index, entry)` for every occupied slot. -/
def iterIndex {E : Type} (l : List (Option E)) : List (Nat × E) :=
  iterIndexFrom 0 l

/-- Mirrors `DebuggableServerData` plus the transport's client table:
`debuggables` is the registry, `clients` the transport client slots
(`true` = connected, index = peer id), and the two inbox-reader flags. -/
structure DebuggableServerState where
  debuggables : List (Option DebuggableOnServer)
  clients : List Bool
  only_reads_from_dir : Bool
  read_from_dir : Option String
deriving DecidableEq, Repr

/-- `clients().contains_index(i)` of the transport client table. -/
def containsIndex (c : List Bool) (i : Nat) : Bool :=
  c.getD i false

/-- `clients().iter_index().map(|(index, _)| index)`: the indices of the
connected clients. -/
def clientIndices (c : List Bool) : List Nat :=
  (List.range c.length).filter (fun i => c.getD i false)

/-- Mirrors `Who` in `src/server/mod.rs` (the audience selector of
`notify_new_value`); the `HashSet` of wrong clients is modelled as a list. -/
inductive Who where
  | Client (client_id : Nat)
  | All
  | AllBut (except_client : Nat)
  | WrongClients (wrong_clients : List Nat)

/-- The audience computation inside `notify_new_value`
(`src/server/mod.rs:189-202`): `len` is `self.clients_len()`.  For
`AllBut(e)` the source collects `0..clients_len` into a vector and calls
`Vec::remove(e)` only when `e` is in bounds. -/
def whoAudience (len : Nat) : Who → List Nat
  | Who.Client c => [c]
  | Who.All => List.range len
  | Who.AllBut e =>
    let clients_to_notify := List.range len
    if e < clients_to_notify.length then clients_to_notify.eraseIdx e
    else clients_to_notify
  | Who.WrongClients ws => ws

/-- Mirrors `DebuggableServer::init_client` (`src/server/mod.rs:67-77`):
send `GiveClientId` to the new client, then one `Notify` per occupied
registry slot carrying `last_value` or the default `"\x7b\x7d"`. -/
def init_client (s : DebuggableServerState) (client_index : Nat) :
    List (Nat × ServerMessage) :=
  (client_index, ServerMessage.GiveClientId client_index) ::
    (iterIndex s.debuggables).map
      (fun p =>
        (client_index,
          ServerMessage.Notify p.1 p.2.name (p.2.last_value.getD "\x7b\x7d")))

/-- Mirrors `DebuggableServer::process_message_of`
(`src/server/mod.rs:79-107`).  The raw bytes are represented by their decode
result: `none` models `ClientUnitMessage::from_json` failing.  Returns the new
state and the wire messages sent.  Note the source's `Renotify` fallback
iterates the connected clients but calls `init_client(server, client_id)`
with the *requester's* id on every iteration (the loop binder `client` is
unused), which the embedding reproduces. -/
def process_message_of (s : DebuggableServerState) (client_id : Nat)
    (msg : Option ClientUnitMessage) :
    DebuggableServerState × List (Nat × ServerMessage) :=
  match msg with
  | none => (s, [])
  | some (ClientUnitMessage.UpdateValue id new_value) =>
    match fivGet s.debuggables id with
    | none => (s, [])
    | some debuggable =>
      ({ s with
          debuggables := s.debuggables.set id
            (some { debuggable with
                      incoming_jsons :=
                        debuggable.incoming_jsons ++ [(client_id, new_value)] }) },
        [])
  | some ClientUnitMessage.Renotify =>
    if containsIndex s.clients client_id then
      (s, init_client s client_id)
    else
      (s, (clientIndices s.clients).flatMap (fun _ => init_client s client_id))

/-- Mirrors `DebuggableServer::notify_new_value`
(`src/server/mod.rs:187-209`): set the entry's `last_value` to
`changed_value`, then send `Notify { id, name, last_value or "\x7b\x7d" }` to
the audience.  The source unwraps the registry lookup, so an absent id is
modelled as `none` (a panic). -/
def notify_new_value (s : DebuggableServerState) (changed_id : Nat)
    (changed_value : Option String) (who : Who) :
    Option (DebuggableServerState × List (Nat × ServerMessage)) :=
  match fivGet s.debuggables changed_id with
  | none => none
  | some debuggable =>
    some
      ({ s with
          debuggables := s.debuggables.set changed_id
            (some { debuggable with last_value := changed_value }) },
        (whoAudience s.clients.length who).map
          (fun c =>
            (c, ServerMessage.Notify changed_id debuggable.name
                  (changed_value.getD "\x7b\x7d"))))

/-- Mirrors `DebuggableServer::init_debuggable` (`src/server/mod.rs:211-213`):
push a fresh entry (no last value, empty pending list) and return its id. -/
def init_debuggable (s : DebuggableServerState) (name : String) :
    Nat × DebuggableServerState :=
  let r := fivPush s.debuggables (DebuggableOnServer.mk name none [])
  (r.1, { s with debuggables := r.2 })

/-- Mirrors `DebuggableServer::remove_debuggable`
(`src/server/mod.rs:215-217`): vacate slot `debuggable_id`. -/
def remove_debuggable (s : DebuggableServerState) (debuggable_id : Nat) :
    DebuggableServerState :=
  { s with debuggables := s.debuggables.set debuggable_id none }

/-- Mirrors `Drop for Debuggable` (`src/debuggable/mod.rs:154-159`): dropping
the host handle only calls `remove_debuggable`; it sends no wire message. -/
def drop_debuggable (s : DebuggableServerState) (id : Nat) :
    DebuggableServerState × List (Nat × ServerMessage) :=
  (remove_debuggable s id, [])

/-- Mirrors the `on_close` callback (`src/server/mod.rs:57-62`): broadcast
`RemoveAll` to every client slot. -/
def on_close (s : DebuggableServerState) : List (Nat × ServerMessage) :=
  (List.range s.clients.length).map (fun i => (i, ServerMessage.RemoveAll))

/-- Mirrors the `JSONDeSerializable` trait of `src/serializable/mod.rs`:
both directions may fail. -/
structure JSONDeSerializable (Value : Type) where
  to_json : Value → Option String
  from_json : String → Option Value

/-- `json_is_different` inside the `process_changes` closure
(`src/debuggable/mod.rs:93`):
`current_json.is_none() || new_json.ne(current_json.as_ref().unwrap())`. -/
def jsonIsDifferent (current_json : Option String) (new_json : String) : Bool :=
  match current_json with
  | none => true
  | some c => new_json != c

/-- One application of the per-proposal closure of `process_changes`
(`src/debuggable/mod.rs:92-106`): returns the accepted `(client, value)` (if
this proposal wins) and the client recorded into `wrong_clients` (if this
proposal fails to decode or to re-serialize). -/
def proposal_step {V : Type} (inst : JSONDeSerializable V)
    (current_json : Option String) (p : Nat × String) :
    Option (Nat × V) × Option Nat :=
  if jsonIsDifferent current_json p.2 then
    match inst.from_json p.2 with
    | none => (none, some p.1)
    | some new_value =>
      match inst.to_json new_value with
      | none => (none, some p.1)
      | some _ => ((some (p.1, new_value)), none)
  else (none, none)

/-- The proposal scan of `process_changes` (`src/debuggable/mod.rs:92-107`):
`incoming_jsons.into_iter().rev().map(closure).next().unwrap_or(None)`.
`Iterator::next` on a lazy `map` applies the closure to at most the *first*
element of the reversed list, so only the most recently arrived proposal is
ever examined, and `wrong_clients` can only record that proposal's sender. -/
def scan_proposals {V : Type} (inst : JSONDeSerializable V)
    (current_json : Option String) (incoming : List (Nat × String)) :
    Option (Nat × V) × List Nat :=
  match incoming.reverse with
  | [] => (none, [])
  | p :: _ =>
    let r := proposal_step inst current_json p
    (r.1, r.2.toList)

/-- The body of `Debuggable::process_changes` (`src/debuggable/mod.rs:83-125`)
after the registry lookup of entry `id` yielded `d`
(`last_value_of_equals` and `take_incoming_jsons_of` both unwrap that same
lookup).  Returns the typed value after the pass, the new server state, and
the wire messages sent. -/
def process_changes_with {V : Type} (inst : JSONDeSerializable V) (v : V)
    (id : Nat) (s : DebuggableServerState) (d : DebuggableOnServer) :
    Option (V × DebuggableServerState × List (Nat × ServerMessage)) :=
  let current_json := inst.to_json v
  let has_changed := !(d.last_value == current_json)
  -- `take_incoming_jsons_of` empties the entry's pending list.
  let s1 : DebuggableServerState :=
    { s with
        debuggables := s.debuggables.set id (some { d with incoming_jsons := [] }) }
  let scanned := scan_proposals inst current_json d.incoming_jsons
  let new_value := scanned.1
  let wrong_clients := scanned.2
  let who_to_notify : Option Who :=
    match new_value with
    | some cv => some (Who.AllBut cv.1)
    | none =>
      if has_changed then some Who.All
      else if !has_changed && !wrong_clients.isEmpty then
        some (Who.WrongClients wrong_clients)
      else none
  let final_value : V :=
    match new_value with
    | some cv => cv.2
    | none => v
  match who_to_notify with
  | none => some (final_value, s1, [])
  | some w =>
    (notify_new_value s1 id current_json w).map (fun r => (final_value, r.1, r.2))

/-- Mirrors `Debuggable::process_changes` (`src/debuggable/mod.rs:83-125`).
The non-blocking input draining of steps 1-2 (`accept_incoming_not_blocking`,
`read_all_clients`) is modelled as already reflected in `s`; an unoccupied
entry id makes the source panic on `unwrap`, modelled as `none`. -/
def process_changes {V : Type} (inst : JSONDeSerializable V) (v : V)
    (id : Nat) (s : DebuggableServerState) :
    Option (V × DebuggableServerState × List (Nat × ServerMessage)) :=
  match fivGet s.debuggables id with
  | none => none
  | some d => process_changes_with inst v id s d

/-- Mirrors the comparator passed to `transactions.sort_by` in
`DebuggableServer::read_clients_from_read_dir` (`src/server/mod.rs:169-175`):
triples with different client ids compare `Equal`; triples of the same client
compare by transaction number.  A triple is `(client_id, transaction,
contents)`. -/
def transactionsCmp (a b : Nat × Nat × String) : Ordering :=
  if a.1 ≠ b.1 then Ordering.eq else compare a.2.1 b.2.1

/-- Insertion into the reversed accumulator, mirroring one step of a stable
insertion sort: the inserted element moves left past exactly the elements
that compare `Greater` to it, scanning from the right. -/
def revInsert {α : Type} (cmp : α → α → Ordering) (x : α) : List α → List α
  | [] => [x]
  | a :: r =>
    if cmp a x = Ordering.gt then a :: revInsert cmp x r else x :: a :: r

/-- Models Rust's stable `slice::sort_by` as a stable insertion sort (Rust's
sort *is* an insertion sort for short slices, and any stable sort agrees with
it whenever the comparator restricted to the input is a total preorder). -/
def rustSortBy {α : Type} (cmp : α → α → Ordering) (l : List α) : List α :=
  (l.foldl (fun r x => revInsert cmp x r) []).reverse

/-- The order in which `read_clients_from_read_dir`
(`src/server/mod.rs:169-183`) replays the collected
`(client_id, transaction, contents)` triples through `process_message_of`:
the directory-listing order sorted with `transactionsCmp`. -/
def readDirReplayOrder (l : List (Nat × Nat × String)) : List (Nat × Nat × String) :=
  rustSortBy transactionsCmp l

/-- The spec's words for the claimed replay order: `(peer_id, sequence)`
ascending lexicographically (adjacent pairs, which for a total order is
equivalent to full sortedness). -/
def specLexOrdered : List (Nat × Nat × String) → Bool
  | [] => true
  | [_] => true
  | a :: b :: r =>
    (decide (a.1 < b.1) || (decide (a.1 = b.1) && decide (a.2.1 ≤ b.2.1))) &&
      specLexOrdered (b :: r)

/-- The numeric value of a decimal digit character, or `none`. -/
def digitVal (c : Char) : Option Nat :=
  if '0' ≤ c ∧ c ≤ '9' then some (c.toNat - 48) else none

/-- Accumulating decimal parser over a character list. -/
def parseNatAux : List Char → Nat → Option Nat
  | [], acc => some acc
  | c :: r, acc =>
    match digitVal c with
    | none => none
    | some d => parseNatAux r (acc * 10 + d)

/-- Parse a non-empty all-digit string as a natural number. -/
def parseNat (s : String) : Option Nat :=
  match s.data with
  | [] => none
  | c :: r => parseNatAux (c :: r) 0

/-- A concrete `JSONDeSerializable` instance used for concrete runs: natural
numbers serialized as their decimal representation.  `from_json` fails on any
non-numeral payload (such as `"x"`). -/
def natCodec : JSONDeSerializable Nat where
  to_json n := some (Nat.repr n)
  from_json s := parseNat s

/-- Server state with one entry (id 0, name `n`, last broadcast `"0"`) whose
pending proposals are `"7"` from peer 1 (older, valid) then `"x"` from
peer 2 (newer, invalid); three connected clients. -/
def stateC1 : DebuggableServerState :=
  ⟨[some ⟨"n", some "0", [(1, "7"), (2, "x")]⟩], [true, true, true], false, none⟩

/-- Server state with one entry (id 0, last broadcast `"0"`) and one pending
proposal `"7"` from peer 1; two connected clients. -/
def stateC2 : DebuggableServerState :=
  ⟨[some ⟨"n", some "0", [(1, "7")]⟩], [true, true], false, none⟩

/-- Server state with one fully synced entry: last broadcast `"0"`, no
pending proposals. -/
def stateC4 : DebuggableServerState :=
  ⟨[some ⟨"n", some "0", []⟩], [true], false, none⟩

/-- Server state with occupied slots 0 and 2 and a hole at slot 1. -/
def stateC5 : DebuggableServerState :=
  ⟨[some ⟨"a", some "1", []⟩, none, some ⟨"b", none, []⟩], [true], false, none⟩

/-- Server state with one entry and exactly two connected clients (0 and 1);
client id 5 is not connected. -/
def stateC6 : DebuggableServerState :=
  ⟨[some ⟨"a", some "1", []⟩], [true, true], false, none⟩

/-- Server state with one occupied entry carrying one queued proposal. -/
def stateC8 : DebuggableServerState :=
  ⟨[some ⟨"e", none, [(4, "old")]⟩], [], false, none⟩

/-- Server state with two occupied entries. -/
def stateC10 : DebuggableServerState :=
  ⟨[some ⟨"a", some "1", []⟩, some ⟨"b", none, []⟩], [true], false, none⟩

/-- A directory listing yielding a triple of peer 2 before a triple of
peer 1: `(peer 2, seq 5)` then `(peer 1, seq 0)`. -/
def dirListingA : List (Nat × Nat × String) := [(2, 5, "A"), (1, 0, "B")]

/-- A directory listing where peer 2's triples (seq 1 then seq 0) are
separated by a triple of peer 1. -/
def dirListingB : List (Nat × Nat × String) :=
  [(2, 1, "x"), (1, 9, "y"), (2, 0, "z")]

section RegistryLemmas

variable {E : Type}

theorem fivGet_some_lt {l : List (Option E)} {i : Nat} {e : E}
    (h : fivGet l i = some e) : i < l.length := by
  induction l generalizing i with
  | nil => simp [fivGet] at h
  | cons x r ih =>
    cases i with
    | zero => simp
    | succ n =>
      have := ih (i := n) h
      simp only [List.length_cons]
      omega

theorem fivGet_set_self {l : List (Option E)} {i : Nat}
    (h : i < l.length) (x : Option E) : fivGet (l.set i x) i = x := by
  induction l generalizing i with
  | nil => simp at h
  | cons a r ih =>
    cases i with
    | zero => simp [List.set, fivGet]
    | succ n =>
      simp only [List.set, fivGet]
      exact ih (by simpa using h)

theorem fivGet_set_ne (l : List (Option E)) (i j : Nat) (x : Option E)
    (h : i ≠ j) : fivGet (l.set i x) j = fivGet l j := by
  induction l generalizing i j with
  | nil => simp [List.set]
  | cons a r ih =>
    cases i with
    | zero =>
      cases j with
      | zero => exact absurd rfl h
      | succ m => simp [List.set, fivGet]
    | succ n =>
      cases j with
      | zero => simp [List.set, fivGet]
      | succ m =>
        simp only [List.set, fivGet]
        exact ih n m (by omega)

theorem set_fivGet_self {l : List (Option E)} {i : Nat} {x : Option E}
    (h : fivGet l i = x) (hi : i < l.length) : l.set i x = l := by
  induction l generalizing i with
  | nil => simp at hi
  | cons a r ih =>
    cases i with
    | zero =>
      simp only [fivGet] at h
      simp [List.set, h]
    | succ n =>
      simp only [fivGet] at h
      simp only [List.set, List.cons.injEq, true_and]
      exact ih h (by simpa using hi)

theorem fivGet_set_none (l : List (Option E)) (k : Nat) :
    fivGet (l.set k none) k = none := by
  induction l generalizing k with
  | nil => simp [List.set, fivGet]
  | cons a r ih =>
    cases k with
    | zero => simp [List.set, fivGet]
    | succ n => simpa [List.set, fivGet] using ih n

theorem fivPush_get (l : List (Option E)) (e : E) :
    fivGet (fivPush l e).2 (fivPush l e).1 = some e := by
  induction l with
  | nil => simp [fivPush, fivGet]
  | cons a r ih =>
    cases a with
    | none => simp [fivPush, fivGet]
    | some x => simpa [fivPush, fivGet] using ih

theorem iterIndexFrom_fst_ge (l : List (Option E)) (n : Nat) :
    ∀ p ∈ iterIndexFrom n l, n ≤ p.1 := by
  induction l generalizing n with
  | nil => simp [iterIndexFrom]
  | cons a r ih =>
    cases a with
    | none =>
      intro p hp
      have := ih (n + 1) p hp
      omega
    | some e =>
      intro p hp
      simp only [iterIndexFrom, List.mem_cons] at hp
      rcases hp with h | h
      · simp [h]
      · have := ih (n + 1) p h
        omega

theorem iterIndexFrom_pairwise (l : List (Option E)) (n : Nat) :
    List.Pairwise (fun p q => p.1 < q.1) (iterIndexFrom n l) := by
  induction l generalizing n with
  | nil => simp [iterIndexFrom]
  | cons a r ih =>
    cases a with
    | none => exact ih (n + 1)
    | some e =>
      simp only [iterIndexFrom]
      refine List.Pairwise.cons ?_ (ih (n + 1))
      intro q hq
      have := iterIndexFrom_fst_ge r (n + 1) q hq
      omega

theorem iterIndexFrom_length (l : List (Option E)) (n : Nat) :
    (iterIndexFrom n l).length = l.countP (fun o => o.isSome) := by
  induction l generalizing n with
  | nil => simp [iterIndexFrom]
  | cons a r ih =>
    cases a with
    | none => simp [iterIndexFrom, List.countP_cons, ih]
    | some e => simp [iterIndexFrom, List.countP_cons, ih]

theorem iterIndexFrom_mem {l : List (Option E)} {k : Nat} {e : E}
    (h : fivGet l k = some e) (n : Nat) : (n + k, e) ∈ iterIndexFrom n l := by
  induction l generalizing k n with
  | nil => simp [fivGet] at h
  | cons a r ih =>
    cases k with
    | zero =>
      simp only [fivGet] at h
      subst h
      simp [iterIndexFrom]
    | succ m =>
      simp only [fivGet] at h
      cases a with
      | none =>
        have := ih h (n + 1)
        simpa [iterIndexFrom, Nat.add_comm, Nat.add_left_comm, Nat.add_assoc] using this
      | some x =>
        have := ih h (n + 1)
        simp only [iterIndexFrom, List.mem_cons]
        right
        have harith : n + 1 + m = n + (m + 1) := by omega
        rwa [harith] at this

theorem iterIndex_mem {l : List (Option E)} {k : Nat} {e : E}
    (h : fivGet l k = some e) : (k, e) ∈ iterIndex l := by
  have := iterIndexFrom_mem h 0
  simpa [iterIndex] using this

end RegistryLemmas

section UnfoldingLemmas

theorem process_changes_eq_with {V : Type} (inst : JSONDeSerializable V)
    (v : V) (id : Nat) (s : DebuggableServerState) {d : DebuggableOnServer}
    (h : fivGet s.debuggables id = some d) :
    process_changes inst v id s = process_changes_with inst v id s d := by
  unfold process_changes
  rw [h]

theorem notify_new_value_eq (s : DebuggableServerState) (changed_id : Nat)
    (changed_value : Option String) (who : Who) {d : DebuggableOnServer}
    (h : fivGet s.debuggables changed_id = some d) :
    notify_new_value s changed_id changed_value who =
      some
        ({ s with
            debuggables := s.debuggables.set changed_id
              (some { d with last_value := changed_value }) },
          (whoAudience s.clients.length who).map
            (fun c =>
              (c, ServerMessage.Notify changed_id d.name
                    (changed_value.getD "\x7b\x7d")))) := by
  unfold notify_new_value
  rw [h]

theorem entry_set_incoming_empty (d : DebuggableOnServer)
    (h : d.incoming_jsons = []) :
    ({ d with incoming_jsons := [] } : DebuggableOnServer) = d := by
  cases d
  simp only at h
  simp [h]

/-- Only the last (most recently arrived) pending proposal determines the
scan's outcome: the older proposals are never examined. -/
theorem scan_proposals_append {V : Type} (inst : JSONDeSerializable V)
    (current_json : Option String) (ps : List (Nat × String))
    (p : Nat × String) :
    scan_proposals inst current_json (ps ++ [p]) =
      scan_proposals inst current_json [p] := by
  simp [scan_proposals, List.reverse_append]

theorem eraseIdx_append_of_lt (l l' : List α) (i : Nat) (h : i < l.length) :
    (l ++ l').eraseIdx i = l.eraseIdx i ++ l' := by
  induction l generalizing i with
  | nil => simp at h
  | cons a r ih =>
    cases i with
    | zero => simp [List.eraseIdx]
    | succ n =>
      simp only [List.cons_append, List.eraseIdx, List.cons.injEq, true_and]
      exact ih n (by simpa using h)

theorem eraseIdx_append_length (l : List α) (a : α) :
    (l ++ [a]).eraseIdx l.length = l := by
  induction l with
  | nil => simp [List.eraseIdx]
  | cons x r ih => simp [List.eraseIdx, ih]

/-- The audience that `Who::AllBut(c)` computes is exactly every client index
other than `c`. -/
theorem range_filter_ne (n c : Nat) :
    (List.range n).filter (fun i => i != c) =
      if c < n then (List.range n).eraseIdx c else List.range n := by
  induction n with
  | zero => simp
  | succ m ih =>
    rw [List.range_succ, List.filter_append]
    by_cases hlt : c < m
    · have hmc : m ≠ c := by omega
      rw [if_pos (by omega)]
      rw [eraseIdx_append_of_lt _ _ c (by simpa using hlt)]
      rw [ih, if_pos hlt]
      simp [hmc]
    · by_cases hcm : c = m
      · subst hcm
        rw [if_pos (by omega)]
        have herase : (List.range c ++ [c]).eraseIdx c = List.range c := by
          have h2 := eraseIdx_append_length (List.range c) c
          simpa using h2
        rw [herase]
        have hall : (List.range c).filter (fun i => i != c) = List.range c := by
          apply List.filter_eq_self.mpr
          intro a ha
          have : a < c := List.mem_range.mp ha
          simp
          omega
        rw [hall]
        simp
      · have hmc : m ≠ c := by omega
        rw [if_neg (by omega), ih, if_neg hlt]
        simp [hmc]

theorem whoAudience_allBut (len c : Nat) :
    whoAudience len (Who.AllBut c) =
      (List.range len).filter (fun i => i != c) := by
  simp only [whoAudience, List.length_range]
  rw [range_filter_ne]

theorem map_pair_fst (l : List Nat) (m : ServerMessage) :
    (l.map (fun t => (t, m))).map Prod.fst = l := by
  induction l with
  | nil => rfl
  | cons a r ih => simp [ih]

/-- The accepted-proposal path of `process_changes`, in closed form: when the
scan of the pending proposals accepts `(c, nv)`, the pass returns the decoded
value `nv`, stores the *pre-pass* serialization `to_json v` as the entry's
`last_value`, clears the pending list, and sends one `Notify` carrying that
pre-pass serialization to every client index except `c`. -/
theorem process_changes_accepted {V : Type} (inst : JSONDeSerializable V)
    (v : V) (id : Nat) (s : DebuggableServerState) {d : DebuggableOnServer}
    (h : fivGet s.debuggables id = some d) {c : Nat} {nv : V}
    (hacc : (scan_proposals inst (inst.to_json v) d.incoming_jsons).1 =
      some (c, nv)) :
    process_changes inst v id s =
      some (nv,
        { s with
            debuggables := s.debuggables.set id
              (some (DebuggableOnServer.mk d.name (inst.to_json v) [])) },
        ((List.range s.clients.length).filter (fun i => i != c)).map
          (fun t =>
            (t, ServerMessage.Notify id d.name
                  ((inst.to_json v).getD "\x7b\x7d")))) := by
  have hlt := fivGet_some_lt h
  have h1 : fivGet (s.debuggables.set id (some { d with incoming_jsons := [] }))
      id = some { d with incoming_jsons := [] } := fivGet_set_self hlt _
  rw [process_changes_eq_with inst v id s h]
  simp only [process_changes_with, hacc]
  rw [notify_new_value_eq _ _ _ _ h1]
  simp [whoAudience_allBut, List.set_set]

end UnfoldingLemmas

section SortLemmas

theorem mem_revInsert {α : Type} (cmp : α → α → Ordering) (x y : α)
    (r : List α) (h : y ∈ revInsert cmp x r) : y = x ∨ y ∈ r := by
  induction r with
  | nil => simpa [revInsert] using h
  | cons a r' ih =>
    simp only [revInsert] at h
    by_cases hc : cmp a x = Ordering.gt
    · rw [if_pos hc] at h
      rcases List.mem_cons.mp h with h | h
      · exact Or.inr (List.mem_cons.mpr (Or.inl h))
      · rcases ih h with h | h
        · exact Or.inl h
        · exact Or.inr (List.mem_cons.mpr (Or.inr h))
    · rw [if_neg hc] at h
      rcases List.mem_cons.mp h with h | h
      · exact Or.inl h
      · exact Or.inr h

/-- For triples that all belong to the same client, `transactionsCmp`
compares by transaction number. -/
theorem transactionsCmp_same_client {a b : Nat × Nat × String}
    (ha : a.1 = b.1) : transactionsCmp a b = compare a.2.1 b.2.1 := by
  simp [transactionsCmp, ha]

/-- Insertion keeps the reversed accumulator sorted (largest transaction
first) as long as everything belongs to one client. -/
theorem revInsert_sorted (c : Nat) (x : Nat × Nat × String)
    (r : List (Nat × Nat × String)) (hx : x.1 = c) (hr : ∀ y ∈ r, y.1 = c)
    (hs : List.Pairwise (fun a b => b.2.1 ≤ a.2.1) r) :
    List.Pairwise (fun a b => b.2.1 ≤ a.2.1) (revInsert transactionsCmp x r) := by
  induction r with
  | nil => simp [revInsert]
  | cons a r' ih =>
    have hac : a.1 = c := hr a (List.mem_cons_self a r')
    have hcmp : transactionsCmp a x = compare a.2.1 x.2.1 :=
      transactionsCmp_same_client (by rw [hac, hx])
    simp only [revInsert]
    rcases List.pairwise_cons.mp hs with ⟨hhead, htail⟩
    by_cases hgt : transactionsCmp a x = Ordering.gt
    · rw [if_pos hgt]
      have hxa : x.2.1 < a.2.1 := by
        rw [hcmp] at hgt
        exact Nat.compare_eq_gt.mp hgt
      refine List.pairwise_cons.mpr ⟨?_, ?_⟩
      · intro y hy
        rcases mem_revInsert _ _ _ _ hy with h | h
        · subst h
          omega
        · exact hhead y h
      · exact ih (fun y hy => hr y (List.mem_cons_of_mem a hy)) htail
    · rw [if_neg hgt]
      have hax : a.2.1 ≤ x.2.1 := by
        rw [hcmp] at hgt
        have hnot : ¬ x.2.1 < a.2.1 := fun hlt => hgt (Nat.compare_eq_gt.mpr hlt)
        omega
      refine List.pairwise_cons.mpr ⟨?_, hs⟩
      intro y hy
      rcases List.mem_cons.mp hy with h | h
      · subst h
        exact hax
      · have := hhead y h
        omega

theorem foldl_revInsert_sorted (c : Nat) (l acc : List (Nat × Nat × String))
    (hl : ∀ x ∈ l, x.1 = c) (hacc : ∀ y ∈ acc, y.1 = c)
    (hs : List.Pairwise (fun a b => b.2.1 ≤ a.2.1) acc) :
    List.Pairwise (fun a b => b.2.1 ≤ a.2.1)
      (l.foldl (fun r x => revInsert transactionsCmp x r) acc) := by
  revert hl
  induction l generalizing acc with
  | nil => intro _; simpa using hs
  | cons x l' ih =>
    intro hl
    simp only [List.foldl_cons]
    have hx : x.1 = c := hl x (List.mem_cons_self x l')
    refine ih _ ?_ ?_ (fun y hy => hl y (List.mem_cons_of_mem x hy))
    · intro y hy
      rcases mem_revInsert _ _ _ _ hy with h | h
      · rw [h]; exact hx
      · exact hacc y h
    · exact revInsert_sorted c x acc hx hacc hs

end SortLemmas

/-! ## Claim theorems -/

/-- Claim C1, counterexample: in `stateC1` the newest pending proposal
(`"x"` from peer 2) is invalid and the older pending proposal (`"7"` from
peer 1) is valid and differs from the current value `"0"`, yet the pass does
not accept the older proposal: the typed value stays `0` (the claim demands
it become `7`), peer 2 alone is flagged, and only the corrective notify to
peer 2 is sent.  Scanning does not continue past the rejected newest
proposal. -/
theorem C1_counterexample :
    natCodec.from_json "x" = none ∧
    natCodec.from_json "7" = some 7 ∧
    jsonIsDifferent (natCodec.to_json 0) "7" = true ∧
    process_changes natCodec 0 0 stateC1 =
      some (0,
        ⟨[some ⟨"n", some "0", []⟩], [true, true, true], false, none⟩,
        [(2, ServerMessage.Notify 0 "n" "0")]) ∧
    (process_changes natCodec 0 0 stateC1).map (fun r => r.1) ≠ some 7 :=
  ⟨by decide, by decide, by decide, by decide, by decide⟩

/-- Claim C1, amended: the reconciliation scan examines only the most
recently arrived pending proposal — `rev().map(closure).next()` applies the
closure to at most the head of the reversed list — so the scan's outcome
(accepted proposal and flagged peers alike) is unchanged when all older
proposals are removed, and an older proposal is never accepted or even
inspected. -/
theorem C1_theorem {V : Type} (inst : JSONDeSerializable V)
    (current_json : Option String) (ps : List (Nat × String))
    (p : Nat × String) :
    scan_proposals inst current_json (ps ++ [p]) =
      scan_proposals inst current_json [p] := by
  simp [scan_proposals, List.reverse_append]

/-- Claim C2, counterexample: in `stateC2` the proposal `"7"` from peer 1 is
accepted (the typed value becomes `7`), yet the notification sent carries the
pre-pass value `"0"`, and the entry's `last_value` is updated to `"0"` — not
to the accepted proposal's serialization `"7"`. -/
theorem C2_counterexample :
    natCodec.to_json 7 = some "7" ∧
    process_changes natCodec 0 0 stateC2 =
      some (7,
        ⟨[some ⟨"n", some "0", []⟩], [true, true], false, none⟩,
        [(0, ServerMessage.Notify 0 "n" "0")]) ∧
    ("0" : String) ≠ "7" :=
  ⟨by decide, by decide, by decide⟩

/-- Claim C2, amended: in a pass that accepts a peer proposal, the
notification carries the *pre-pass* current serialized value (`to_json v`),
and `last_value` is updated to that same pre-pass value; the accepted decoded
value only replaces the mirror's typed value. -/
theorem C2_theorem {V : Type} (inst : JSONDeSerializable V) (v : V) (id : Nat)
    (s : DebuggableServerState) (d : DebuggableOnServer) (c : Nat) (nv : V)
    (h : fivGet s.debuggables id = some d)
    (hacc : (scan_proposals inst (inst.to_json v) d.incoming_jsons).1 =
      some (c, nv)) :
    ∃ s2 sends, process_changes inst v id s = some (nv, s2, sends) ∧
      (∀ tm ∈ sends,
        tm.2 = ServerMessage.Notify id d.name ((inst.to_json v).getD "\x7b\x7d")) ∧
      fivGet s2.debuggables id = some ⟨d.name, inst.to_json v, []⟩ := by
  refine ⟨_, _, process_changes_accepted inst v id s h hacc, ?_, ?_⟩
  · intro tm htm
    rcases List.mem_map.mp htm with ⟨t, _, rfl⟩
    rfl
  · exact fivGet_set_self (fivGet_some_lt h) _

/-- Witness for `C2_theorem` at `stateC2`. -/
theorem C2_witness :
    fivGet stateC2.debuggables 0 = some ⟨"n", some "0", [(1, "7")]⟩ ∧
    (scan_proposals natCodec (natCodec.to_json 0)
        (DebuggableOnServer.mk "n" (some "0") [(1, "7")]).incoming_jsons).1 =
      some (1, 7) ∧
    (∃ s2 sends, process_changes natCodec 0 0 stateC2 = some (7, s2, sends) ∧
      (∀ tm ∈ sends,
        tm.2 = ServerMessage.Notify 0 "n" ((natCodec.to_json 0).getD "\x7b\x7d")) ∧
      fivGet s2.debuggables 0 = some ⟨"n", natCodec.to_json 0, []⟩) :=
  ⟨by decide, by decide,
    C2_theorem natCodec 0 0 stateC2 ⟨"n", some "0", [(1, "7")]⟩ 1 7
      (by decide) (by decide)⟩

/-- Claim C3: whenever a proposal from peer `c` is accepted, the audience of
the (single) notification is exactly every client index except `c`,
regardless of whether the host value had changed and regardless of the
recorded wrong clients: the accepted-proposal branch of the audience decision
takes priority, and no separate corrective notification is sent in the same
pass. -/
theorem C3_theorem {V : Type} (inst : JSONDeSerializable V) (v : V) (id : Nat)
    (s : DebuggableServerState) (d : DebuggableOnServer) (c : Nat) (nv : V)
    (h : fivGet s.debuggables id = some d)
    (hacc : (scan_proposals inst (inst.to_json v) d.incoming_jsons).1 =
      some (c, nv)) :
    ∃ s2 sends, process_changes inst v id s = some (nv, s2, sends) ∧
      sends.map Prod.fst =
        (List.range s.clients.length).filter (fun i => i != c) := by
  exact ⟨_, _, process_changes_accepted inst v id s h hacc, map_pair_fst _ _⟩

/-- Witness for `C3_theorem` at `stateC2`: the audience is `[0]`, every
client but the proposer `1`. -/
theorem C3_witness :
    fivGet stateC2.debuggables 0 = some ⟨"n", some "0", [(1, "7")]⟩ ∧
    (scan_proposals natCodec (natCodec.to_json 0)
        (DebuggableOnServer.mk "n" (some "0") [(1, "7")]).incoming_jsons).1 =
      some (1, 7) ∧
    (∃ s2 sends, process_changes natCodec 0 0 stateC2 = some (7, s2, sends) ∧
      sends.map Prod.fst =
        (List.range stateC2.clients.length).filter (fun i => i != 1)) :=
  ⟨by decide, by decide,
    C3_theorem natCodec 0 0 stateC2 ⟨"n", some "0", [(1, "7")]⟩ 1 7
      (by decide) (by decide)⟩

/-- Claim C4: a reconciliation pass on an entry with no pending proposals
whose `last_value` equals the current serialization is a complete no-op: the
state (registry, `last_value`, pending lists) is returned unchanged, the
typed value is unchanged, and no wire message is sent. -/
theorem C4_theorem {V : Type} (inst : JSONDeSerializable V) (v : V) (id : Nat)
    (s : DebuggableServerState) (d : DebuggableOnServer)
    (h : fivGet s.debuggables id = some d) (hemp : d.incoming_jsons = [])
    (heq : d.last_value = inst.to_json v) :
    process_changes inst v id s = some (v, s, []) := by
  have hlt := fivGet_some_lt h
  have hent : ({ d with incoming_jsons := [] } : DebuggableOnServer) = d :=
    entry_set_incoming_empty d hemp
  rw [process_changes_eq_with inst v id s h]
  simp only [process_changes_with, hemp]
  rw [hent, set_fivGet_self h hlt]
  simp [scan_proposals, heq]

/-- Witness for `C4_theorem` at `stateC4`. -/
theorem C4_witness :
    fivGet stateC4.debuggables 0 = some ⟨"n", some "0", []⟩ ∧
    (DebuggableOnServer.mk "n" (some "0") []).incoming_jsons = [] ∧
    (DebuggableOnServer.mk "n" (some "0") []).last_value = natCodec.to_json 0 ∧
    process_changes natCodec 0 0 stateC4 = some (0, stateC4, []) :=
  ⟨by decide, rfl, by decide,
    C4_theorem natCodec 0 0 stateC4 ⟨"n", some "0", []⟩ (by decide) rfl
      (by decide)⟩

/-- Claim C5: `init_client` sends exactly one peer-id-assignment message
(`GiveClientId`) followed by one `Notify` per occupied registry slot, in
strictly ascending id order (the registry iteration is strictly increasing
and covers exactly the occupied slots), each carrying the entry's
`last_value` or the default `"\x7b\x7d"`; every message goes to the
connecting client. -/
theorem C5_theorem (s : DebuggableServerState) (ci k : Nat)
    (d : DebuggableOnServer) (h : fivGet s.debuggables k = some d) :
    init_client s ci =
        (ci, ServerMessage.GiveClientId ci) ::
          (iterIndex s.debuggables).map
            (fun p =>
              (ci, ServerMessage.Notify p.1 p.2.name (p.2.last_value.getD "\x7b\x7d"))) ∧
      List.Pairwise (fun p q => p.1 < q.1) (iterIndex s.debuggables) ∧
      (iterIndex s.debuggables).length =
        s.debuggables.countP (fun o => o.isSome) ∧
      (k, d) ∈ iterIndex s.debuggables :=
  ⟨rfl, iterIndexFrom_pairwise s.debuggables 0, iterIndexFrom_length s.debuggables 0,
    iterIndex_mem h⟩

/-- Witness for `C5_theorem` at `stateC5` (occupied slots 0 and 2, hole
at 1). -/
theorem C5_witness :
    fivGet stateC5.debuggables 2 = some ⟨"b", none, []⟩ ∧
    (init_client stateC5 7 =
        (7, ServerMessage.GiveClientId 7) ::
          (iterIndex stateC5.debuggables).map
            (fun p =>
              (7, ServerMessage.Notify p.1 p.2.name (p.2.last_value.getD "\x7b\x7d"))) ∧
      List.Pairwise (fun p q => p.1 < q.1) (iterIndex stateC5.debuggables) ∧
      (iterIndex stateC5.debuggables).length =
        stateC5.debuggables.countP (fun o => o.isSome) ∧
      ((2 : Nat), (⟨"b", none, []⟩ : DebuggableOnServer)) ∈
        iterIndex stateC5.debuggables) :=
  ⟨by decide, C5_theorem stateC5 7 2 ⟨"b", none, []⟩ (by decide)⟩

/-- Claim C6, evaluation at the failing input: in `stateC6` clients 0 and 1
are connected and client 5 is not.  A `Renotify` from the no-longer-connected
peer 5 makes the fallback branch run `init_client(server, client_id)` once
per connected client with the *requester's* id — so the snapshot sequence is
sent twice, both times addressed to the absent peer 5, and neither connected
peer receives anything, contradicting the claim that every currently
connected peer receives the snapshot. -/
theorem C6_theorem :
    containsIndex stateC6.clients 5 = false ∧
    clientIndices stateC6.clients = [0, 1] ∧
    init_client stateC6 5 =
      [(5, ServerMessage.GiveClientId 5), (5, ServerMessage.Notify 0 "a" "1")] ∧
    process_message_of stateC6 5 (some ClientUnitMessage.Renotify) =
      (stateC6,
        [(5, ServerMessage.GiveClientId 5), (5, ServerMessage.Notify 0 "a" "1"),
         (5, ServerMessage.GiveClientId 5), (5, ServerMessage.Notify 0 "a" "1")]) ∧
    ((process_message_of stateC6 5 (some ClientUnitMessage.Renotify)).2.all
        (fun tm => tm.1 == 5)) = true :=
  ⟨by decide, by decide, by decide, by decide, by decide⟩

/-- Claim C7, counterexample: the sort comparator reports triples of
*different* peers as equal, so the stable sort leaves `dirListingA` —
`(peer 2, seq 5)` before `(peer 1, seq 0)` — unchanged, which is not
`(peer_id, sequence)` lexicographic ascending order; and on `dirListingB`
peer 2's triples are replayed seq 1 before seq 0, so even a single peer's
file-sourced proposals are not applied in ascending sequence order. -/
theorem C7_counterexample :
    readDirReplayOrder dirListingA = dirListingA ∧
    specLexOrdered (readDirReplayOrder dirListingA) = false ∧
    readDirReplayOrder dirListingB = dirListingB ∧
    specLexOrdered (readDirReplayOrder dirListingB) = false :=
  ⟨by decide, by decide, by decide, by decide⟩

/-- Claim C7, amended: ascending sequence order is guaranteed only for a set
of collected triples that all come from one peer (where the comparator is a
genuine total preorder); triples of different peers compare equal and stay in
directory-listing order. -/
theorem C7_theorem (c : Nat) (l : List (Nat × Nat × String))
    (h : ∀ x ∈ l, x.1 = c) :
    List.Pairwise (fun a b => a.2.1 ≤ b.2.1) (readDirReplayOrder l) := by
  have hs := foldl_revInsert_sorted c l [] h (by simp) (by simp)
  unfold readDirReplayOrder rustSortBy
  exact List.pairwise_reverse.mpr hs

/-- Witness for `C7_theorem`: a single-peer listing is replayed in ascending
sequence order. -/
theorem C7_witness :
    (∀ x ∈ ([(3, 9, "p"), (3, 2, "q")] : List (Nat × Nat × String)), x.1 = 3) ∧
    List.Pairwise (fun a b => a.2.1 ≤ b.2.1)
      (readDirReplayOrder [(3, 9, "p"), (3, 2, "q")]) :=
  ⟨by decide, C7_theorem 3 [(3, 9, "p"), (3, 2, "q")] (by decide)⟩

/-- Claim C8: an undecodable message is dropped with no state change and no
sends; an `UpdateValue` naming an unoccupied id is likewise dropped; an
`UpdateValue` naming an occupied id appends `(peer, value)` to exactly that
entry's pending list (every other slot unchanged) and sends nothing. -/
theorem C8_theorem (s : DebuggableServerState) (cid id : Nat) (nv : String) :
    process_message_of s cid none = (s, []) ∧
      (fivGet s.debuggables id = none →
        process_message_of s cid (some (ClientUnitMessage.UpdateValue id nv)) =
          (s, [])) ∧
      (∀ d, fivGet s.debuggables id = some d →
        process_message_of s cid (some (ClientUnitMessage.UpdateValue id nv)) =
          ({ s with
              debuggables := s.debuggables.set id
                (some { d with
                          incoming_jsons := d.incoming_jsons ++ [(cid, nv)] }) },
            []) ∧
        ∀ j, j ≠ id →
          fivGet (s.debuggables.set id
              (some { d with
                        incoming_jsons := d.incoming_jsons ++ [(cid, nv)] })) j =
            fivGet s.debuggables j) := by
  refine ⟨rfl, ?_, ?_⟩
  · intro hnone
    simp [process_message_of, hnone]
  · intro d hd
    refine ⟨by simp [process_message_of, hd], ?_⟩
    intro j hj
    exact fivGet_set_ne _ _ _ _ (Ne.symm hj)

/-- Witness for `C8_theorem` at `stateC8` (slot 0 occupied, slot 5 absent). -/
theorem C8_witness :
    process_message_of stateC8 3 none = (stateC8, []) ∧
    fivGet stateC8.debuggables 5 = none ∧
    process_message_of stateC8 3 (some (ClientUnitMessage.UpdateValue 5 "v")) =
      (stateC8, []) ∧
    fivGet stateC8.debuggables 0 = some ⟨"e", none, [(4, "old")]⟩ ∧
    process_message_of stateC8 3 (some (ClientUnitMessage.UpdateValue 0 "v")) =
      ({ stateC8 with
          debuggables := stateC8.debuggables.set 0
            (some ⟨"e", none, [(4, "old"), (3, "v")]⟩) }, []) := by
  refine ⟨(C8_theorem stateC8 3 5 "v").1, by decide,
    (C8_theorem stateC8 3 5 "v").2.1 (by decide), by decide, ?_⟩
  exact ((C8_theorem stateC8 3 0 "v").2.2 ⟨"e", none, [(4, "old")]⟩ (by decide)).1

/-- Claim C9: removing the entry at id `k` vacates the slot, and a
subsequently registered entry — at whatever id `fivPush` assigns, possibly
`k` itself — starts with `last_value = none` and an *empty* pending-proposal
list, so proposals queued against the old entry before its removal are never
applied to the new entry. -/
theorem C9_theorem (s : DebuggableServerState) (k : Nat) (name : String) :
    fivGet (remove_debuggable s k).debuggables k = none ∧
      fivGet (init_debuggable (remove_debuggable s k) name).2.debuggables
          (init_debuggable (remove_debuggable s k) name).1 =
        some ⟨name, none, []⟩ :=
  ⟨fivGet_set_none s.debuggables k,
    fivPush_get (remove_debuggable s k).debuggables ⟨name, none, []⟩⟩

theorem init_client_no_remove (s : DebuggableServerState) (ci : Nat) :
    ∀ tm ∈ init_client s ci, tm.2.isRemoveVariant = false := by
  intro tm htm
  rcases List.mem_cons.mp htm with h | h
  · subst h
    rfl
  · rcases List.mem_map.mp h with ⟨p, _, rfl⟩
    rfl

theorem notify_new_value_no_remove (s : DebuggableServerState) (id : Nat)
    (cv : Option String) (w : Who) (r : DebuggableServerState × List (Nat × ServerMessage))
    (h : notify_new_value s id cv w = some r) :
    ∀ tm ∈ r.2, tm.2.isRemoveVariant = false := by
  cases hfg : fivGet s.debuggables id with
  | none =>
    unfold notify_new_value at h
    rw [hfg] at h
    exact absurd h (by simp)
  | some d =>
    rw [notify_new_value_eq s id cv w hfg] at h
    obtain rfl := Option.some.inj h
    intro tm htm
    rcases List.mem_map.mp htm with ⟨t, _, rfl⟩
    rfl

theorem process_message_of_no_remove (s : DebuggableServerState) (cid : Nat)
    (m : Option ClientUnitMessage) :
    ∀ tm ∈ (process_message_of s cid m).2, tm.2.isRemoveVariant = false := by
  intro tm htm
  match m with
  | none => simp [process_message_of] at htm
  | some (ClientUnitMessage.UpdateValue id nv) =>
    cases hfg : fivGet s.debuggables id
    · simp [process_message_of, hfg] at htm
    · simp [process_message_of, hfg] at htm
  | some ClientUnitMessage.Renotify =>
    cases hc : containsIndex s.clients cid
    · simp only [process_message_of, hc, Bool.false_eq_true, if_false] at htm
      rcases List.mem_flatMap.mp htm with ⟨i, _, hm⟩
      exact init_client_no_remove s cid tm hm
    · simp only [process_message_of, hc, if_true] at htm
      exact init_client_no_remove s cid tm htm

theorem map_notify_no_remove {V : Type} (s1 : DebuggableServerState)
    (id : Nat) (cj : Option String) (w : Who) (fv : V)
    (r : V × DebuggableServerState × List (Nat × ServerMessage))
    (h : Option.map (fun q => (fv, q.1, q.2)) (notify_new_value s1 id cj w) =
      some r) :
    ∀ tm ∈ r.2.2, tm.2.isRemoveVariant = false := by
  cases hn : notify_new_value s1 id cj w <;> rw [hn] at h
  · exact absurd h (by simp)
  case some q =>
    obtain rfl := Option.some.inj h
    exact notify_new_value_no_remove s1 id cj w q hn

theorem process_changes_no_remove {V : Type} (inst : JSONDeSerializable V)
    (v : V) (id : Nat) (s : DebuggableServerState)
    (r : V × DebuggableServerState × List (Nat × ServerMessage))
    (h : process_changes inst v id s = some r) :
    ∀ tm ∈ r.2.2, tm.2.isRemoveVariant = false := by
  unfold process_changes at h
  cases hfg : fivGet s.debuggables id <;> rw [hfg] at h
  · exact absurd h (by simp)
  case some d =>
    cases hsc : (scan_proposals inst (inst.to_json v) d.incoming_jsons).1 with
    | some cv =>
      obtain ⟨c0, nv0⟩ := cv
      have hpc : process_changes inst v id s = some r := by
        unfold process_changes
        rw [hfg]
        exact h
      rw [process_changes_accepted inst v id s hfg hsc] at hpc
      obtain rfl := Option.some.inj hpc
      intro tm htm
      rcases List.mem_map.mp htm with ⟨t, _, rfl⟩
      rfl
    | none =>
      simp only [process_changes_with, hsc] at h
      split at h
      · obtain rfl := Option.some.inj h
        intro tm htm
        exact absurd htm (by simp)
      · exact map_notify_no_remove _ id _ _ _ r h

theorem on_close_remove_all (s : DebuggableServerState) :
    ∀ tm ∈ on_close s, tm.2 = ServerMessage.RemoveAll := by
  intro tm htm
  rcases List.mem_map.mp htm with ⟨i, _, rfl⟩
  rfl

/-- Claim C10: dropping a Value Mirror removes exactly its own slot from the
registry (slot `k` becomes vacant, every other slot and the client table are
untouched) and sends no wire message; and the `Remove` message variant —
which exists in the `ServerMessage` vocabulary — is never produced by any
message-emitting operation of the server (`init_client`,
`process_message_of`, `notify_new_value`, `process_changes`, `on_close`), so
peers are never explicitly told that a value was withdrawn. -/
theorem C10_theorem (s : DebuggableServerState) (k : Nat) :
    (drop_debuggable s k).2 = ([] : List (Nat × ServerMessage)) ∧
      fivGet (drop_debuggable s k).1.debuggables k = none ∧
      (∀ j, j ≠ k →
        fivGet (drop_debuggable s k).1.debuggables j = fivGet s.debuggables j) ∧
      (drop_debuggable s k).1.clients = s.clients ∧
      (∀ ci tm, tm ∈ init_client s ci → tm.2.isRemoveVariant = false) ∧
      (∀ cid m tm, tm ∈ (process_message_of s cid m).2 →
        tm.2.isRemoveVariant = false) ∧
      (∀ id cv w r, notify_new_value s id cv w = some r →
        ∀ tm ∈ r.2, tm.2.isRemoveVariant = false) ∧
      (∀ (V : Type) (inst : JSONDeSerializable V) (v : V) (id : Nat) r,
        process_changes inst v id s = some r →
        ∀ tm ∈ r.2.2, tm.2.isRemoveVariant = false) ∧
      (∀ tm ∈ on_close s, tm.2 = ServerMessage.RemoveAll) := by
  refine ⟨rfl, fivGet_set_none s.debuggables k, ?_, rfl, ?_, ?_, ?_, ?_, ?_⟩
  · intro j hj
    exact fivGet_set_ne _ _ _ _ (Ne.symm hj)
  · exact fun ci => init_client_no_remove s ci
  · exact fun cid m => process_message_of_no_remove s cid m
  · exact fun id cv w r h => notify_new_value_no_remove s id cv w r h
  · exact fun V inst v id r h => process_changes_no_remove inst v id s r h
  · exact on_close_remove_all s

/-- Witness for `C10_theorem` at `stateC10`, dropping entry 1. -/
theorem C10_witness :
    (drop_debuggable stateC10 1).2 = ([] : List (Nat × ServerMessage)) ∧
    fivGet (drop_debuggable stateC10 1).1.debuggables 1 = none ∧
    ((0 : Nat) ≠ 1 ∧
      fivGet (drop_debuggable stateC10 1).1.debuggables 0 =
        fivGet stateC10.debuggables 0) :=
  ⟨(C10_theorem stateC10 1).1, (C10_theorem stateC10 1).2.1,
    ⟨by decide, (C10_theorem stateC10 1).2.2.1 0 (by decide)⟩⟩

end DebugMonitor
